import Mathlib

set_option allowUnsafeReducibility true
attribute [local semireducible] Rat.add Rat.mul Rat.div Rat.sub Rat.inv Rat.neg Rat.normalize

/-!
Shallow embedding of the NIFTY options backtesting framework
(`backtest_framework.py` and the equity-curve part of `run_backtest.py`).

Modelling conventions:
* dates, expiries and datetimes are natural numbers; a row's time of day is
  the pair (hour, minute), and `dtMin` is its minute-of-day, so that the
  source's `DateTime <= close_time` comparisons (which only ever compare
  datetimes of the same date) become minute-of-day comparisons;
* prices and capital are exact rationals (the source uses Python floats);
* a missing (`NaN`) underlying price is `Option.none`;
* the pandas DataFrame `nifty_data` is a `List Row` in its row order
  (`load_data` sorts it by DateTime before the run);
* the `trades_today` Python dict is an association list in insertion
  order; `incTT` updates an existing key in place, matching `dict[k] += 1`
  (the source only ever increments a key that the per-date initialisation
  has put in the dict);
* `sorted(...unique())` over dates is `sortedUnique`, producing the
  strictly increasing list of distinct elements.
-/

/-- Option type vocabulary: the source's strings "CE" and "PE". -/
inductive OptionType where
  | CE : OptionType
  | PE : OptionType
deriving DecidableEq, Repr

/-- One row of the market-data table (one quote record). -/
structure Row where
  date : ℕ
  hh : ℕ
  mm : ℕ
  underlying : Option ℚ
  expiry : ℕ
  dte : ℕ
  strike : ℤ
  close : ℚ
  optionType : OptionType
deriving DecidableEq, Repr

/-- Minute-of-day of a row; `15:00:00` is minute 900. -/
def dtMin (r : Row) : ℕ := r.hh * 60 + r.mm

/-- Row filter used by `get_option_price` and `get_exit_price_at_close`:
`(Date == date) & (Expiry == expiry) & (Strike == strike) & (Option Type == option_type)`. -/
def rowMatches (d e : ℕ) (k : ℤ) (t : OptionType) (r : Row) : Bool :=
  r.date == d && r.expiry == e && r.strike == k && r.optionType == t

/-- `get_option_price`: first matching row's Close, `None` when no row matches. -/
def get_option_price (md : List Row) (d e : ℕ) (k : ℤ) (t : OptionType) : Option ℚ :=
  ((md.filter (rowMatches d e k t)).head?).map Row.close

/-- `get_exit_price_at_close`: among matching rows, the Close of the last row
at or before 15:00; if none is at or before 15:00, the last row of the day;
`None` when no row matches at all. -/
def get_exit_price_at_close (md : List Row) (d e : ℕ) (k : ℤ) (t : OptionType) : Option ℚ :=
  let date_data := md.filter (rowMatches d e k t)
  if date_data.length = 0 then none
  else
    let close_data := date_data.filter (fun r => decide (dtMin r ≤ 900))
    if 0 < close_data.length then close_data.getLast?.map Row.close
    else date_data.getLast?.map Row.close

/-- Insert into a strictly increasing list of naturals, dropping duplicates. -/
def insertAscNat (d : ℕ) : List ℕ → List ℕ
  | [] => [d]
  | e :: es => if d < e then d :: e :: es else if d = e then e :: es else e :: insertAscNat d es

/-- `sorted(set(l))`: the strictly increasing list of the distinct elements. -/
def sortedUnique (l : List ℕ) : List ℕ := l.foldr insertAscNat []

/-- DTE of the first row of a date's data holding a given expiry
(`groupby('Expiry')['DTE'].first()`). -/
def firstDTE (dateData : List Row) (e : ℕ) : ℕ :=
  (((dateData.find? (fun r => r.expiry == e))).map Row.dte).getD 0

/-- `idxmin` over the per-expiry first DTEs: the first expiry (in sorted
expiry order, as pandas `groupby` sorts its keys) whose DTE is minimal. -/
def idxminDTE (dateData : List Row) : List ℕ → Option ℕ
  | [] => none
  | e :: es =>
      some (es.foldl (fun best e' =>
        if firstDTE dateData e' < firstDTE dateData best then e' else best) e)

/-- `get_nearest_expiry`: expiry with the smallest DTE among the date's rows. -/
def get_nearest_expiry (md : List Row) (d : ℕ) : Option ℕ :=
  let dateData := md.filter (fun r => r.date == d)
  if dateData.length = 0 then none
  else idxminDTE dateData (sortedUnique (dateData.map Row.expiry))

/-- Floor of a rational (`Int.fdiv` of the reduced fraction, so that it
reduces inside the kernel). -/
def ratFloor (q : ℚ) : ℤ := Int.fdiv q.num q.den

/-- Python's `round` (round half to even) on a rational. -/
def roundHalfEven (q : ℚ) : ℤ :=
  let f := ratFloor q
  let r := q - f
  if r < 1/2 then f
  else if 1/2 < r then f + 1
  else if f % 2 = 0 then f else f + 1

/-- `get_atm_strike`: round the underlying to the nearest multiple of 50;
`None` for a non-positive underlying (`NaN` is handled by the caller's
`Option` on the underlying). -/
def get_atm_strike (u : ℚ) : Option ℤ :=
  if u ≤ 0 then none else some (roundHalfEven (u / 50) * 50)

/-- An open position, as appended to `live_positions`. -/
structure Pos where
  entry_date : ℕ
  entry_hh : ℕ
  entry_mm : ℕ
  expiry : ℕ
  strike : ℤ
  option_type : OptionType
  entry_price : ℚ
  investment : ℚ
  underlying_at_entry : ℚ
deriving DecidableEq, Repr

/-- A closed trade, as appended to the ledger. -/
structure Trade where
  strategy : String
  entry_date : ℕ
  exit_date : ℕ
  entry_hh : ℕ
  entry_mm : ℕ
  exit_hh : ℕ
  exit_mm : ℕ
  option_type : OptionType
  strike : ℤ
  expiry : ℕ
  entry_price : ℚ
  exit_price : ℚ
  profit : ℚ
  profit_pct : ℚ
  capital_after : ℚ
  underlying_at_entry : ℚ
deriving DecidableEq, Repr

/-- Engine state: running capital, the ledger, the `trades_today` dict and
the live-position list (plus the `entry_checks` counter). -/
structure BState where
  capital : ℚ
  trades : List Trade
  tradesToday : List (ℕ × ℕ)
  livePositions : List Pos
  entryChecks : ℕ
deriving DecidableEq, Repr

/-- `trades_today[d]` with the dict's default-absent read modelled as 0. -/
def getTT (tt : List (ℕ × ℕ)) (d : ℕ) : ℕ :=
  (((tt.find? (fun p => p.1 == d))).map Prod.snd).getD 0

/-- Whether the key `d` is present in the dict. -/
def hasTT (tt : List (ℕ × ℕ)) (d : ℕ) : Bool :=
  ((tt.find? (fun p => p.1 == d))).isSome

/-- `if date not in trades_today: trades_today[date] = 0`. -/
def initTT (tt : List (ℕ × ℕ)) (d : ℕ) : List (ℕ × ℕ) :=
  if hasTT tt d then tt else tt ++ [(d, 0)]

/-- `trades_today[date] += 1` (the key is present whenever the source runs this). -/
def incTT (tt : List (ℕ × ℕ)) (d : ℕ) : List (ℕ × ℕ) :=
  tt.map (fun p => if p.1 == d then (p.1, p.2 + 1) else p)

/-- The trade record built at a close (`trades.append({...})`); `newCap` is
the capital after the `capital += pnl` update. -/
def mkTrade (name : String) (d : ℕ) (pos : Pos) (ep : ℚ) (pnl pnlPct newCap : ℚ) : Trade :=
  { strategy := name
    entry_date := pos.entry_date
    exit_date := d
    entry_hh := pos.entry_hh
    entry_mm := pos.entry_mm
    exit_hh := 15
    exit_mm := 0
    option_type := pos.option_type
    strike := pos.strike
    expiry := pos.expiry
    entry_price := pos.entry_price
    exit_price := ep
    profit := pnl
    profit_pct := pnlPct * 100
    capital_after := newCap
    underlying_at_entry := pos.underlying_at_entry }

/-- One closing pass over `live_positions` (`cond` selects which positions to
evaluate: `date >= entry_date` in the first pass, `date == entry_date` in the
same-day pass); a position whose exit price is missing stays live. -/
def closePass (md : List Row) (name : String) (d : ℕ) (cond : Pos → Bool) (st : BState) :
    BState :=
  let step := fun (acc : BState × List Pos) (pos : Pos) =>
    if cond pos then
      match get_exit_price_at_close md d pos.expiry pos.strike pos.option_type with
      | some ep =>
          let pnlPct := (ep - pos.entry_price) / pos.entry_price
          let pnl := pos.investment * pnlPct
          let cap := acc.1.capital + pnl
          ({ acc.1 with
              capital := cap
              trades := acc.1.trades ++ [mkTrade name d pos ep pnl pnlPct cap]
              tradesToday := incTT acc.1.tradesToday d }, acc.2)
      | none => (acc.1, acc.2 ++ [pos])
    else (acc.1, acc.2 ++ [pos])
  let out := st.livePositions.foldl step (st, [])
  { out.1 with livePositions := out.2 }

/-- Entry-signal contract: `(date, current_underlying, observations so far
on this date) -> (option_type, should_entry)`. -/
abbrev Strat := ℕ → ℚ → List Row → Option OptionType × Bool

/-- One body of the entry loop, after the break check: time gate at 09:30,
underlying and expiry checks, ATM strike, strategy call, price check, open. -/
def entryStep (md : List Row) (strat : Strat) (d : ℕ) (dateFiltered : List Row)
    (st : BState) (row : Row) : BState :=
  if row.hh < 9 ∨ (row.hh = 9 ∧ row.mm < 30) then st
  else
    match row.underlying with
    | none => st
    | some u =>
      if u ≤ 0 then st
      else
        match get_nearest_expiry md d with
        | none => st
        | some expiry =>
          match get_atm_strike u with
          | none => st
          | some strike =>
            let st1 : BState := { st with entryChecks := st.entryChecks + 1 }
            let currentData := dateFiltered.filter (fun r => decide (dtMin r ≤ dtMin row))
            let sig := strat d u currentData
            if sig.2 then
              match sig.1 with
              | some t =>
                match get_option_price md d expiry strike t with
                | some p =>
                  if 0 < p then
                    { st1 with
                        livePositions := st1.livePositions ++
                          [⟨d, row.hh, row.mm, expiry, strike, t, p, st1.capital * (1/10), u⟩]
                        tradesToday := incTT st1.tradesToday d }
                  else st1
                | none => st1
              | none => st1
            else st1

/-- The entry loop's break condition:
`len(live_positions) > 0 or trades_today[date] >= 3`. -/
def entryBreak (d : ℕ) (st : BState) : Bool :=
  0 < st.livePositions.length || 3 ≤ getTT st.tradesToday d

/-- The entry loop over the date's sampled intraday rows. -/
def entryLoop (md : List Row) (strat : Strat) (d : ℕ) (dateFiltered : List Row) :
    List Row → BState → BState
  | [], st => st
  | row :: rest, st =>
      if entryBreak d st then st
      else entryLoop md strat d dateFiltered rest (entryStep md strat d dateFiltered st row)

/-- Stride sampler: keep a row when the countdown hits 0, then skip the next
`k` rows (structural recursion so that runs reduce inside the kernel). -/
def every5Aux : List Row → ℕ → List Row
  | [], _ => []
  | r :: rest, 0 => r :: every5Aux rest 4
  | _ :: rest, k + 1 => every5Aux rest k

/-- Every 5th row (`range(0, len(date_filtered), 5)`). -/
def every5 (l : List Row) : List Row := every5Aux l 0

/-- Process one trading date: initialise the `trades_today` key, run the
close-at-horizon pass, the sampled entry loop, then the same-day close pass. -/
def processDate (md : List Row) (strat : Strat) (name : String) (st : BState) (d : ℕ) :
    BState :=
  let st0 : BState := { st with tradesToday := initTT st.tradesToday d }
  let dateFiltered := md.filter (fun r => r.date == d)
  let st1 := closePass md name d (fun pos => decide (pos.entry_date ≤ d)) st0
  let st2 := entryLoop md strat d dateFiltered (every5 dateFiltered) st1
  closePass md name d (fun pos => pos.entry_date == d) st2

/-- The distinct trading dates in ascending order. -/
def uniqueDates (md : List Row) : List ℕ := sortedUnique (md.map Row.date)

/-- The engine's initial state. -/
def initState (cap : ℚ) : BState := ⟨cap, [], [], [], 0⟩

/-- The final state of `backtest_strategy`'s date loop. -/
def runBacktest (md : List Row) (strat : Strat) (name : String) (cap : ℚ) : BState :=
  (uniqueDates md).foldl (processDate md strat name) (initState cap)

/-- `backtest_strategy`: the returned trade ledger. -/
def backtest_strategy (md : List Row) (strat : Strat) (name : String) (cap : ℚ) :
    List Trade :=
  (runBacktest md strat name cap).trades

/-!
Execution trace: the engine states at the observable points of a run (date
start, after the close-at-horizon pass, at the top of every entry-loop
iteration, and after the same-day close pass), used to state the "at no point
during the simulation" invariants.
-/

/-- States at the top of each entry-loop iteration, plus the state the loop
stops in (on break or exhaustion). -/
def entryStates (md : List Row) (strat : Strat) (d : ℕ) (dateFiltered : List Row) :
    List Row → BState → List BState
  | [], st => [st]
  | row :: rest, st =>
      if entryBreak d st then [st]
      else st :: entryStates md strat d dateFiltered rest (entryStep md strat d dateFiltered st row)

/-- The observable states while one date is processed. -/
def dateStates (md : List Row) (strat : Strat) (name : String) (st : BState) (d : ℕ) :
    List BState :=
  let st0 : BState := { st with tradesToday := initTT st.tradesToday d }
  let dateFiltered := md.filter (fun r => r.date == d)
  let st1 := closePass md name d (fun pos => decide (pos.entry_date ≤ d)) st0
  st :: st0 :: st1 ::
    (entryStates md strat d dateFiltered (every5 dateFiltered) st1 ++
      [processDate md strat name st d])

/-- The observable states across a list of dates. -/
def runStates (md : List Row) (strat : Strat) (name : String) : List ℕ → BState → List BState
  | [], st => [st]
  | d :: ds, st =>
      dateStates md strat name st d ++ runStates md strat name ds (processDate md strat name st d)

/-- All observable states of a full `backtest_strategy` run. -/
def runTrace (md : List Row) (strat : Strat) (name : String) (cap : ℚ) : List BState :=
  runStates md strat name (uniqueDates md) (initState cap)

/-!
The performance metrics calculator (`calculate_performance_metrics` and
`_empty_metrics`). CAGR and the Sharpe ratio involve irrational powers and
square roots, so they are represented symbolically: the constructor records
exactly the inputs of the source's formula, and `zero` is the source's
literal 0 branch. Everything else is exact rational arithmetic.
-/

/-- CAGR value: `zero` when the date span is 0 (or the ledger is empty);
`compound fv ic days` denotes `((fv / ic) ** (365.25 / days) - 1) * 100`. -/
inductive CagrVal where
  | zero : CagrVal
  | compound : ℚ → ℚ → ℕ → CagrVal
deriving DecidableEq, Repr

/-- Sharpe value: `zero` for the source's 0 branches; `annualized m v`
denotes `sqrt(252) * m / sqrt(v)` for mean `m` and (sample) variance `v > 0`. -/
inductive SharpeVal where
  | zero : SharpeVal
  | annualized : ℚ → ℚ → SharpeVal
deriving DecidableEq, Repr

/-- The metrics report (the dict returned by `calculate_performance_metrics`). -/
structure MetricsReport where
  CAGR : CagrVal
  Maximum_Drawdown : ℚ
  Sharpe_Ratio : SharpeVal
  Win_Rate : ℚ
  Total_Trades : ℕ
  Winning_Trades : ℕ
  Losing_Trades : ℕ
  Avg_Profit_Per_Trade : ℚ
  Avg_Loss_Per_Trade : ℚ
  Total_Return : ℚ
  Final_Capital : ℚ
  Profit_Factor : ℚ
  Max_Consecutive_Wins : ℕ
  Max_Consecutive_Losses : ℕ
  Equity_Curve : List (ℕ × ℚ)
deriving DecidableEq, Repr

/-- `_empty_metrics`. -/
def empty_metrics (initial_capital : ℚ) : MetricsReport :=
  { CAGR := CagrVal.zero
    Maximum_Drawdown := 0
    Sharpe_Ratio := SharpeVal.zero
    Win_Rate := 0
    Total_Trades := 0
    Winning_Trades := 0
    Losing_Trades := 0
    Avg_Profit_Per_Trade := 0
    Avg_Loss_Per_Trade := 0
    Total_Return := 0
    Final_Capital := initial_capital
    Profit_Factor := 0
    Max_Consecutive_Wins := 0
    Max_Consecutive_Losses := 0
    Equity_Curve := [] }

/-- Stable insertion by `entry_date` (a later trade goes after earlier trades
with the same entry date), modelling `sort_values('entry_date')`. -/
def insertTrade (t : Trade) : List Trade → List Trade
  | [] => [t]
  | u :: us => if u.entry_date ≤ t.entry_date then u :: insertTrade t us else t :: u :: us

/-- Sort the ledger by `entry_date`. -/
def sortByEntry (l : List Trade) : List Trade :=
  l.foldl (fun acc t => insertTrade t acc) []

/-- Arithmetic mean of a list of rationals (`Series.mean`). -/
def meanQ (l : List ℚ) : ℚ := l.sum / l.length

/-- Sample variance (`ddof=1`, the square of `Series.std`). -/
def sampleVar (l : List ℚ) : ℚ :=
  ((l.map (fun x => (x - meanQ l) ^ 2)).sum) / (l.length - 1 : ℕ)

/-- Period-over-period returns (`pct_change().dropna()`). -/
def pctChanges : List ℚ → List ℚ
  | [] => []
  | [_] => []
  | a :: b :: rest => (b / a - 1) :: pctChanges (b :: rest)

/-- Cumulative series: each capital divided by the first
(`capital / capital.iloc[0]`). -/
def cumulativeOf (caps : List ℚ) : List ℚ :=
  match caps with
  | [] => []
  | c0 :: _ => caps.map (fun c => c / c0)

/-- Expanding maximum with a running accumulator. -/
def runningMaxAux (m : ℚ) : List ℚ → List ℚ
  | [] => []
  | c :: cs => (max m c) :: runningMaxAux (max m c) cs

/-- `expanding().max()` of a series. -/
def runningMax : List ℚ → List ℚ
  | [] => []
  | c :: cs => runningMaxAux c (c :: cs)

/-- Per-point drawdowns: `(cumulative - running_max) / running_max`. -/
def drawdownsOf (caps : List ℚ) : List ℚ :=
  let cum := cumulativeOf caps
  ((cum.zip (runningMax cum))).map (fun p => (p.1 - p.2) / p.2)

/-- Maximum drawdown in percent: the minimum drawdown times 100 (0 for an
empty series, which the non-empty branch never builds). -/
def mddOf (caps : List ℚ) : ℚ :=
  (match drawdownsOf caps with
   | [] => 0
   | x :: xs => xs.foldl min x) * 100

/-- Maximum over a list with a default for the empty list (`Series.max`). -/
def listMaxD (dflt : ℕ) : List ℕ → ℕ
  | [] => dflt
  | x :: xs => xs.foldl max x

/-- Minimum over a list with a default for the empty list (`Series.min`). -/
def listMinD (dflt : ℕ) : List ℕ → ℕ
  | [] => dflt
  | x :: xs => xs.foldl min x

/-- Consecutive win/loss streak scan (`result = 1 if profit > 0 else -1`). -/
def streaksAux : List ℚ → ℕ → ℕ → ℕ → ℕ → ℕ × ℕ
  | [], mw, ml, _, _ => (mw, ml)
  | p :: ps, mw, ml, cw, cl =>
      if 0 < p then streaksAux ps (max mw (cw + 1)) ml (cw + 1) 0
      else streaksAux ps mw (max ml (cl + 1)) 0 (cl + 1)

/-- Total profit of a list of trades. -/
def sumProfits (l : List Trade) : ℚ := (l.map Trade.profit).sum

/-- The non-empty branch of `calculate_performance_metrics` (the body after
the early `_empty_metrics` return). -/
def metrics_nonempty (initial_capital : ℚ) (trades : List Trade) :
    MetricsReport :=
    let sorted := sortByEntry trades
    let totalDays := listMaxD 0 (sorted.map Trade.exit_date) - listMinD 0 (sorted.map Trade.entry_date)
    let finalValue := (((sorted.getLast?)).map Trade.capital_after).getD 0
    let cagr := if totalDays = 0 then CagrVal.zero
      else CagrVal.compound finalValue initial_capital totalDays
    let curve := sorted.map (fun t => (t.exit_date, t.capital_after))
    let caps := curve.map Prod.snd
    let rets := pctChanges caps
    let sharpe := if 2 ≤ rets.length ∧ 0 < sampleVar rets
      then SharpeVal.annualized (meanQ rets) (sampleVar rets) else SharpeVal.zero
    let wins := sorted.filter (fun t => decide (0 < t.profit))
    let losses := sorted.filter (fun t => decide (t.profit ≤ 0))
    let winRate := if 0 < sorted.length then ((wins.length : ℚ) / sorted.length) * 100 else 0
    let avgProfit := if 0 < wins.length then meanQ (wins.map Trade.profit) else 0
    let avgLoss := if 0 < losses.length then meanQ (losses.map Trade.profit) else 0
    let totalProfit := if 0 < wins.length then sumProfits wins else 0
    let totalLoss := if 0 < losses.length then |sumProfits losses| else 1
    let pf := if 0 < totalLoss then totalProfit / totalLoss else 0
    let st := streaksAux (sorted.map Trade.profit) 0 0 0 0
    { CAGR := cagr
      Maximum_Drawdown := mddOf caps
      Sharpe_Ratio := sharpe
      Win_Rate := winRate
      Total_Trades := sorted.length
      Winning_Trades := wins.length
      Losing_Trades := losses.length
      Avg_Profit_Per_Trade := avgProfit
      Avg_Loss_Per_Trade := avgLoss
      Total_Return := (finalValue / initial_capital - 1) * 100
      Final_Capital := finalValue
      Profit_Factor := pf
      Max_Consecutive_Wins := st.1
      Max_Consecutive_Losses := st.2
      Equity_Curve := curve }

/-- `calculate_performance_metrics`. -/
def calculate_performance_metrics (initial_capital : ℚ) (trades : List Trade) :
    MetricsReport :=
  if trades.isEmpty then empty_metrics initial_capital
  else metrics_nonempty initial_capital trades

/-- Per-date last-capital grouping of equity points
(`groupby('date')['capital'].last()` then `sort_values('date')`, from
`combine_portfolio` in `run_backtest.py`). -/
def groupLastByDate (pts : List (ℕ × ℚ)) : List (ℕ × ℚ) :=
  (sortedUnique (pts.map Prod.fst)).map
    (fun d => (d, ((((pts.filter (fun p => p.1 == d)).getLast?)).map Prod.snd).getD 0))

/-- The equity curve `combine_portfolio` builds from the combined ledger. -/
def combine_portfolio_equity (trades : List Trade) : List (ℕ × ℚ) :=
  groupLastByDate ((sortByEntry trades).map (fun t => (t.exit_date, t.capital_after)))



/-!
Basic lemmas about the `trades_today` dict operations.
-/

/-- Initialising a key does not change any read (the key is created at 0,
the dict's absent-read default). -/
theorem getTT_initTT (tt : List (ℕ × ℕ)) (d d' : ℕ) : getTT (initTT tt d) d' = getTT tt d' := by
  unfold initTT
  split
  · rfl
  · unfold getTT
    rw [List.find?_append]
    cases hf : tt.find? (fun p => p.1 == d') with
    | some v => simp
    | none =>
      by_cases hdd : d = d'
      · rw [List.find?_cons_of_pos _ (by simpa using hdd)]
        simp
      · rw [List.find?_cons_of_neg _ (by simpa using hdd)]
        simp

/-- Incrementing a key raises its read by at most one. -/
theorem getTT_incTT_self_le (tt : List (ℕ × ℕ)) (d : ℕ) :
    getTT (incTT tt d) d ≤ getTT tt d + 1 := by
  induction tt with
  | nil => simp [incTT, getTT]
  | cons p ps ih =>
    by_cases hp : p.1 = d
    · unfold incTT getTT
      rw [List.map_cons, if_pos (by simpa using hp)]
      rw [List.find?_cons_of_pos _ (by simpa using hp),
        List.find?_cons_of_pos _ (by simpa using hp)]
      simp
    · unfold incTT getTT
      rw [List.map_cons, if_neg (by simpa using hp)]
      rw [List.find?_cons_of_neg _ (by simpa using hp),
        List.find?_cons_of_neg _ (by simpa using hp)]
      exact ih

/-- Incrementing one key leaves every other key's read unchanged. -/
theorem getTT_incTT_ne (tt : List (ℕ × ℕ)) (d d' : ℕ) (h : d' ≠ d) :
    getTT (incTT tt d) d' = getTT tt d' := by
  induction tt with
  | nil => simp [incTT, getTT]
  | cons p ps ih =>
    by_cases hp : p.1 = d
    · have hp' : ¬ p.1 = d' := by omega
      unfold incTT getTT
      rw [List.map_cons, if_pos (by simpa using hp)]
      rw [List.find?_cons_of_neg _ (by simp only [beq_iff_eq]; omega),
        List.find?_cons_of_neg _ (by simpa using hp')]
      exact ih
    · by_cases hp' : p.1 = d'
      · unfold incTT getTT
        rw [List.map_cons, if_neg (by simpa using hp)]
        rw [List.find?_cons_of_pos _ (by simpa using hp'),
          List.find?_cons_of_pos _ (by simpa using hp')]
      · unfold incTT getTT
        rw [List.map_cons, if_neg (by simpa using hp)]
        rw [List.find?_cons_of_neg _ (by simpa using hp'),
          List.find?_cons_of_neg _ (by simpa using hp')]
        exact ih

/-!
List lemmas used to characterise the lookup functions.
-/

/-- Head of a filtered list is the first element satisfying the predicate. -/
theorem head?_filter_eq_find? {α : Type} (p : α → Bool) (l : List α) :
    (l.filter p).head? = l.find? p := by
  induction l with
  | nil => rfl
  | cons a t ih =>
    by_cases hp : p a
    · simp [List.filter, List.find?, hp]
    · simp [List.filter, List.find?, hp, ih]

/-- Last of a filtered list is the first element of the reversed list
satisfying the predicate. -/
theorem getLast?_filter_eq_find?_reverse {α : Type} (p : α → Bool) (l : List α) :
    (l.filter p).getLast? = l.reverse.find? p := by
  rw [← List.head?_reverse, ← List.filter_reverse, head?_filter_eq_find?]

/-- Unfolding equation for `get_exit_price_at_close`. -/
theorem get_exit_price_at_close_eq (md : List Row) (d e : ℕ) (k : ℤ) (t : OptionType) :
    get_exit_price_at_close md d e k t =
      (if (md.filter (rowMatches d e k t)).length = 0 then none
       else if 0 < ((md.filter (rowMatches d e k t)).filter
            (fun r => decide (dtMin r ≤ 900))).length
       then ((md.filter (rowMatches d e k t)).filter
            (fun r => decide (dtMin r ≤ 900))).getLast?.map Row.close
       else (md.filter (rowMatches d e k t)).getLast?.map Row.close) := rfl

/-- A successfully looked-up option price comes with a successful exit-price
lookup for the same contract on the same date, and the exit price is the
Close of some matching row of the data. -/
theorem exit_some_of_price_some (md : List Row) (d e : ℕ) (k : ℤ) (t : OptionType)
    (p : ℚ) (h : get_option_price md d e k t = some p) :
    ∃ r : Row, r ∈ md ∧ rowMatches d e k t r = true ∧
      get_exit_price_at_close md d e k t = some r.close := by
  have hne : md.filter (rowMatches d e k t) ≠ [] := by
    intro hnil
    unfold get_option_price at h
    rw [hnil] at h
    simp at h
  have hlen : ¬ (md.filter (rowMatches d e k t)).length = 0 := by
    simpa using (List.length_pos.mpr hne).ne'
  by_cases hc : 0 < ((md.filter (rowMatches d e k t)).filter
      (fun r => decide (dtMin r ≤ 900))).length
  · have hcne : (md.filter (rowMatches d e k t)).filter
        (fun r => decide (dtMin r ≤ 900)) ≠ [] := List.length_pos.mp hc
    obtain ⟨r, hr⟩ := Option.isSome_iff_exists.mp (List.getLast?_isSome.mpr hcne)
    have hrcd : r ∈ (md.filter (rowMatches d e k t)).filter
        (fun r => decide (dtMin r ≤ 900)) :=
      List.mem_of_mem_getLast? (Option.mem_def.mpr hr)
    have hrmem : r ∈ md.filter (rowMatches d e k t) := List.mem_of_mem_filter hrcd
    refine ⟨r, List.mem_of_mem_filter hrmem, List.of_mem_filter hrmem, ?_⟩
    rw [get_exit_price_at_close_eq, if_neg hlen, if_pos hc, hr]
    rfl
  · obtain ⟨r, hr⟩ := Option.isSome_iff_exists.mp (List.getLast?_isSome.mpr hne)
    have hrmem : r ∈ md.filter (rowMatches d e k t) :=
      List.mem_of_mem_getLast? (Option.mem_def.mpr hr)
    refine ⟨r, List.mem_of_mem_filter hrmem, List.of_mem_filter hrmem, ?_⟩
    rw [get_exit_price_at_close_eq, if_neg hlen, if_neg hc, hr]
    rfl

/-!
Lemmas about the closing passes.
-/

/-- A closing pass over an empty live set does nothing. -/
theorem closePass_nil (md : List Row) (name : String) (d : ℕ) (cond : Pos → Bool)
    (st : BState) (h : st.livePositions = []) : closePass md name d cond st = st := by
  unfold closePass
  rw [h]
  obtain ⟨c, tr, tt, lp, ec⟩ := st
  change lp = [] at h
  subst h
  rfl

/-- Closing a single live position that matches the pass condition and has an
exit price: the realised P&L is added to capital, the closed trade is appended
with that capital stamped on it, the per-date counter is incremented, and the
live set empties. -/
theorem closePass_single (md : List Row) (name : String) (d : ℕ) (cond : Pos → Bool)
    (st : BState) (pos : Pos) (ep : ℚ)
    (h : st.livePositions = [pos]) (hc : cond pos = true)
    (he : get_exit_price_at_close md d pos.expiry pos.strike pos.option_type = some ep) :
    closePass md name d cond st =
      { capital := st.capital + pos.investment * ((ep - pos.entry_price) / pos.entry_price)
        trades := st.trades ++ [mkTrade name d pos ep
          (pos.investment * ((ep - pos.entry_price) / pos.entry_price))
          ((ep - pos.entry_price) / pos.entry_price)
          (st.capital + pos.investment * ((ep - pos.entry_price) / pos.entry_price))]
        tradesToday := incTT st.tradesToday d
        livePositions := []
        entryChecks := st.entryChecks } := by
  unfold closePass
  rw [h]
  simp only []
  rw [List.foldl_cons, List.foldl_nil]
  simp only []
  rw [if_pos hc, he]

/-!
Lemmas about the entry loop.
-/

/-- A position opened by the entry loop on date `d`: entered on `d`, sized at
one tenth of the capital at the loop's start, with a positive entry price that
the option-price lookup returned for its contract. -/
def GoodPos (md : List Row) (d : ℕ) (cap : ℚ) (pos : Pos) : Prop :=
  pos.entry_date = d ∧ pos.investment = cap * (1/10) ∧ 0 < pos.entry_price ∧
  get_option_price md d pos.expiry pos.strike pos.option_type = some pos.entry_price

/-- One entry-loop body either leaves the state unchanged (apart from the
`entry_checks` counter) or opens exactly one good position, incrementing the
per-date counter. -/
theorem entryStep_spec (md : List Row) (strat : Strat) (d : ℕ) (df : List Row)
    (st : BState) (row : Row) :
    (∃ n, entryStep md strat d df st row = { st with entryChecks := n }) ∨
    (∃ n pos, GoodPos md d st.capital pos ∧
      entryStep md strat d df st row =
        { st with entryChecks := n
                  livePositions := st.livePositions ++ [pos]
                  tradesToday := incTT st.tradesToday d }) := by
  unfold entryStep
  by_cases h1 : row.hh < 9 ∨ (row.hh = 9 ∧ row.mm < 30)
  · rw [if_pos h1]
    exact Or.inl ⟨st.entryChecks, rfl⟩
  · rw [if_neg h1]
    cases hu : row.underlying with
    | none => exact Or.inl ⟨st.entryChecks, rfl⟩
    | some u =>
      simp only []
      by_cases h2 : u ≤ 0
      · rw [if_pos h2]
        exact Or.inl ⟨st.entryChecks, rfl⟩
      · rw [if_neg h2]
        cases hexp : get_nearest_expiry md d with
        | none => exact Or.inl ⟨st.entryChecks, rfl⟩
        | some expiry =>
          simp only []
          cases hstr : get_atm_strike u with
          | none => exact Or.inl ⟨st.entryChecks, rfl⟩
          | some strike =>
            simp only []
            by_cases h3 : (strat d u (df.filter (fun r => decide (dtMin r ≤ dtMin row)))).2 = true
            · rw [if_pos h3]
              cases hsig : (strat d u (df.filter (fun r => decide (dtMin r ≤ dtMin row)))).1 with
              | none => exact Or.inl ⟨st.entryChecks + 1, rfl⟩
              | some t =>
                simp only []
                cases hprice : get_option_price md d expiry strike t with
                | none => exact Or.inl ⟨st.entryChecks + 1, rfl⟩
                | some p =>
                  simp only []
                  by_cases h4 : 0 < p
                  · rw [if_pos h4]
                    refine Or.inr ⟨st.entryChecks + 1,
                      ⟨d, row.hh, row.mm, expiry, strike, t, p, st.capital * (1/10), u⟩,
                      ⟨rfl, rfl, h4, ?_⟩, rfl⟩
                    exact hprice
                  · rw [if_neg h4]
                    exact Or.inl ⟨st.entryChecks + 1, rfl⟩
            · rw [if_neg h3]
              exact Or.inl ⟨st.entryChecks + 1, rfl⟩

/-- The entry loop breaks immediately when a position is already live: an
entry request arriving then is ignored and the state is unchanged. -/
theorem entryLoop_of_live_ne (md : List Row) (strat : Strat) (d : ℕ) (df : List Row)
    (rows : List Row) (st : BState) (h : st.livePositions ≠ []) :
    entryLoop md strat d df rows st = st := by
  cases rows with
  | nil => rfl
  | cons r rest =>
    unfold entryLoop
    rw [if_pos (by simp [entryBreak, List.length_pos.mpr h])]

/-- Same for the iteration-state list. -/
theorem entryStates_of_live_ne (md : List Row) (strat : Strat) (d : ℕ) (df : List Row)
    (rows : List Row) (st : BState) (h : st.livePositions ≠ []) :
    entryStates md strat d df rows st = [st] := by
  cases rows with
  | nil => rfl
  | cons r rest =>
    unfold entryStates
    rw [if_pos (by simp [entryBreak, List.length_pos.mpr h])]

/-- What every state reached during one date's entry loop satisfies, relative
to the state the loop started in. -/
def EPhi (md : List Row) (d : ℕ) (st s : BState) : Prop :=
  s.capital = st.capital ∧ s.trades = st.trades ∧
  (s.livePositions = [] ∨ ∃ pos, s.livePositions = [pos] ∧ GoodPos md d st.capital pos) ∧
  getTT s.tradesToday d ≤ getTT st.tradesToday d + 1 ∧
  (∀ d', d' ≠ d → getTT s.tradesToday d' = getTT st.tradesToday d')

/-- A state satisfies `EPhi` against itself when its live set is empty. -/
theorem EPhi_self (md : List Row) (d : ℕ) (st : BState) (h : st.livePositions = []) :
    EPhi md d st st :=
  ⟨rfl, rfl, Or.inl h, Nat.le_succ _, fun _ _ => rfl⟩

/-- Every state at an iteration boundary of the entry loop satisfies `EPhi`:
capital and the ledger are untouched, at most one (good) position is live, the
current date's counter rises by at most one and no other counter moves. -/
theorem entryStates_spec (md : List Row) (strat : Strat) (d : ℕ) (df : List Row) :
    ∀ (rows : List Row) (st : BState), st.livePositions = [] →
      ∀ s ∈ entryStates md strat d df rows st, EPhi md d st s := by
  intro rows
  induction rows with
  | nil =>
    intro st h s hs
    simp only [entryStates, List.mem_singleton] at hs
    subst hs
    exact EPhi_self md d s h
  | cons row rest ih =>
    intro st h s hs
    unfold entryStates at hs
    by_cases hb : entryBreak d st = true
    · rw [if_pos hb] at hs
      simp only [List.mem_singleton] at hs
      subst hs
      exact EPhi_self md d s h
    · rw [if_neg hb] at hs
      rcases List.mem_cons.mp hs with hs | hs
      · subst hs
        exact EPhi_self md d s h
      · rcases entryStep_spec md strat d df st row with ⟨n, hstep⟩ | ⟨n, pos, hg, hstep⟩
        · have h' : (entryStep md strat d df st row).livePositions = [] := by
            rw [hstep]
            exact h
          have hmem := ih (entryStep md strat d df st row) h' s hs
          rw [hstep] at hmem
          exact hmem
        · have hlive : (entryStep md strat d df st row).livePositions = [pos] := by
            rw [hstep]
            show st.livePositions ++ [pos] = [pos]
            rw [h]
            rfl
          rw [entryStates_of_live_ne md strat d df rest _ (by rw [hlive]; simp)] at hs
          simp only [List.mem_singleton] at hs
          subst hs
          rw [hstep]
          refine ⟨rfl, rfl, Or.inr ⟨pos, ?_, hg⟩, ?_, ?_⟩
          · show st.livePositions ++ [pos] = [pos]
            rw [h]
            rfl
          · exact getTT_incTT_self_le st.tradesToday d
          · intro d' hd'
            exact getTT_incTT_ne st.tradesToday d d' hd'

/-- The state the entry loop stops in is one of its iteration states. -/
theorem entryLoop_mem_entryStates (md : List Row) (strat : Strat) (d : ℕ) (df : List Row) :
    ∀ (rows : List Row) (st : BState),
      entryLoop md strat d df rows st ∈ entryStates md strat d df rows st := by
  intro rows
  induction rows with
  | nil =>
    intro st
    simp [entryLoop, entryStates]
  | cons row rest ih =>
    intro st
    unfold entryLoop entryStates
    by_cases hb : entryBreak d st = true
    · rw [if_pos hb, if_pos hb]
      simp
    · rw [if_neg hb, if_neg hb]
      exact List.mem_cons_of_mem st (ih (entryStep md strat d df st row))

/-!
Ledger predicates: the capital chain and per-date trade counts.
-/

/-- Capital conservation along a ledger: each trade's `capital_after` is the
previous trade's `capital_after` (the given initial capital for the first
trade) plus its own `profit`. -/
def capChain (c : ℚ) : List Trade → Prop
  | [] => True
  | t :: ts => t.capital_after = c + t.profit ∧ capChain t.capital_after ts

/-- The capital after the last ledger entry (the initial capital for an empty
ledger). -/
def lastCap (c : ℚ) (l : List Trade) : ℚ :=
  ((l.getLast?).map Trade.capital_after).getD c

/-- Number of ledger trades entered on a date. -/
def countEntry (d : ℕ) (l : List Trade) : ℕ :=
  (l.filter (fun t => t.entry_date == d)).length

/-- Number of ledger trades exited on a date. -/
def countExit (d : ℕ) (l : List Trade) : ℕ :=
  (l.filter (fun t => t.exit_date == d)).length

/-- The last capital of a one-longer ledger is the appended trade's. -/
theorem lastCap_append_single (c : ℚ) (l : List Trade) (t : Trade) :
    lastCap c (l ++ [t]) = t.capital_after := by
  simp [lastCap, List.getLast?_concat]

/-- The last capital after a cons steps to the head's `capital_after`. -/
theorem lastCap_cons (c : ℚ) (u : Trade) (us : List Trade) :
    lastCap c (u :: us) = lastCap u.capital_after us := by
  cases us with
  | nil => simp [lastCap]
  | cons v vs =>
    obtain ⟨x, hx⟩ := Option.isSome_iff_exists.mp
      (List.getLast?_isSome.mpr (List.cons_ne_nil v vs))
    unfold lastCap
    rw [List.getLast?_cons_cons, hx]
    rfl

/-- Appending a trade whose capital extends the chain preserves the chain. -/
theorem capChain_append (c : ℚ) (l : List Trade) (t : Trade)
    (h : capChain c l) (ht : t.capital_after = lastCap c l + t.profit) :
    capChain c (l ++ [t]) := by
  induction l generalizing c with
  | nil =>
    refine ⟨?_, trivial⟩
    rw [ht]
    simp [lastCap]
  | cons u us ih =>
    refine ⟨h.1, ?_⟩
    refine ih u.capital_after h.2 ?_
    rw [ht, lastCap_cons]

/-- Counting over an appended singleton. -/
theorem countEntry_append (d : ℕ) (l : List Trade) (t : Trade) :
    countEntry d (l ++ [t]) =
      countEntry d l + (if t.entry_date = d then 1 else 0) := by
  unfold countEntry
  rw [List.filter_append]
  by_cases hd : t.entry_date = d
  · simp [hd]
  · simp [hd]

/-!
The per-date characterisation: processing one date from a state with no live
position leaves the live set empty again, raises the date's counter by at most
2, leaves every other counter alone, and either appends nothing or exactly one
same-day trade whose profit extends the capital chain; with positive capital
and non-negative close prices the new capital stays positive.
-/

theorem processDate_spec (md : List Row) (strat : Strat) (name : String)
    (st : BState) (d : ℕ) (h : st.livePositions = []) :
    (processDate md strat name st d).livePositions = [] ∧
    getTT (processDate md strat name st d).tradesToday d ≤ getTT st.tradesToday d + 2 ∧
    (∀ d', d' ≠ d → getTT (processDate md strat name st d).tradesToday d' =
      getTT st.tradesToday d') ∧
    (((processDate md strat name st d).trades = st.trades ∧
      (processDate md strat name st d).capital = st.capital) ∨
     (∃ t : Trade, (processDate md strat name st d).trades = st.trades ++ [t] ∧
        t.entry_date = d ∧ t.exit_date = d ∧
        (processDate md strat name st d).capital = st.capital + t.profit ∧
        t.capital_after = (processDate md strat name st d).capital ∧
        (0 < st.capital → (∀ r ∈ md, 0 ≤ r.close) →
          0 < (processDate md strat name st d).capital))) := by
  unfold processDate
  simp only []
  set st0 : BState := { st with tradesToday := initTT st.tradesToday d } with hst0
  have h0 : st0.livePositions = [] := h
  rw [closePass_nil md name d _ st0 h0]
  set df := md.filter (fun r => r.date == d) with hdf
  set st2 := entryLoop md strat d df (every5 df) st0 with hst2
  have hphi : EPhi md d st0 st2 :=
    entryStates_spec md strat d df (every5 df) st0 h0 st2
      (entryLoop_mem_entryStates md strat d df (every5 df) st0)
  obtain ⟨hcap2, htr2, hlive2, htt2, htt2'⟩ := hphi
  have hcap0 : st0.capital = st.capital := rfl
  have htr0 : st0.trades = st.trades := rfl
  have htt0 : ∀ d', getTT st0.tradesToday d' = getTT st.tradesToday d' := by
    intro d'
    exact getTT_initTT st.tradesToday d d'
  rcases hlive2 with hl2 | ⟨pos, hl2, hgood⟩
  · rw [closePass_nil md name d _ st2 hl2]
    refine ⟨hl2, ?_, ?_, Or.inl ⟨htr2.trans htr0, hcap2.trans hcap0⟩⟩
    · calc getTT st2.tradesToday d ≤ getTT st0.tradesToday d + 1 := htt2
        _ = getTT st.tradesToday d + 1 := by rw [htt0]
        _ ≤ getTT st.tradesToday d + 2 := by omega
    · intro d' hd'
      rw [htt2' d' hd', htt0]
  · obtain ⟨hd, hinv, hp, hprice⟩ := hgood
    obtain ⟨r, hrmem, hrmatch, hexit⟩ :=
      exit_some_of_price_some md d pos.expiry pos.strike pos.option_type
        pos.entry_price hprice
    have hcond : (pos.entry_date == d) = true := by simpa using hd
    rw [closePass_single md name d _ st2 pos r.close hl2 hcond hexit]
    set pnl := pos.investment * ((r.close - pos.entry_price) / pos.entry_price) with hpnl
    refine ⟨rfl, ?_, ?_, Or.inr ⟨mkTrade name d pos r.close pnl
      ((r.close - pos.entry_price) / pos.entry_price) (st2.capital + pnl),
      ?_, ?_, ?_, ?_, ?_, ?_⟩⟩
    · show getTT (incTT st2.tradesToday d) d ≤ getTT st.tradesToday d + 2
      calc getTT (incTT st2.tradesToday d) d ≤ getTT st2.tradesToday d + 1 :=
            getTT_incTT_self_le _ d
        _ ≤ (getTT st0.tradesToday d + 1) + 1 := by omega
        _ = getTT st.tradesToday d + 2 := by rw [htt0]
    · intro d' hd'
      show getTT (incTT st2.tradesToday d) d' = getTT st.tradesToday d'
      rw [getTT_incTT_ne st2.tradesToday d d' hd', htt2' d' hd', htt0]
    · show st2.trades ++ [mkTrade name d pos r.close pnl _ (st2.capital + pnl)] =
        st.trades ++ [mkTrade name d pos r.close pnl _ (st2.capital + pnl)]
      rw [htr2.trans htr0]
    · show pos.entry_date = d
      exact hd
    · rfl
    · show st2.capital + pnl = st.capital + (mkTrade name d pos r.close pnl
        ((r.close - pos.entry_price) / pos.entry_price) (st2.capital + pnl)).profit
      rw [hcap2.trans hcap0]
      rfl
    · rfl
    · intro hpos hmd
      show 0 < st2.capital + pnl
      rw [hcap2.trans hcap0, hpnl, hinv, hcap0]
      have hr0 : 0 ≤ r.close := hmd r hrmem
      have hkey : (0:ℚ) < 1 + (1/10) * ((r.close - pos.entry_price) / pos.entry_price) := by
        have hdiv : (r.close - pos.entry_price) / pos.entry_price =
            r.close / pos.entry_price - 1 := by
          rw [sub_div, div_self hp.ne']
        rw [hdiv]
        have : 0 ≤ r.close / pos.entry_price := div_nonneg hr0 hp.le
        linarith
      have : st.capital + st.capital * (1/10) *
          ((r.close - pos.entry_price) / pos.entry_price) =
          st.capital * (1 + (1/10) * ((r.close - pos.entry_price) / pos.entry_price)) := by
        ring
      rw [this]
      exact mul_pos hpos hkey

/-!
The ascending date list.
-/

/-- Membership in an `insertAscNat` insertion. -/
theorem mem_insertAscNat (d x : ℕ) (l : List ℕ) :
    x ∈ insertAscNat d l ↔ x = d ∨ x ∈ l := by
  induction l with
  | nil => simp [insertAscNat]
  | cons e es ih =>
    unfold insertAscNat
    by_cases h1 : d < e
    · rw [if_pos h1]
      simp [or_comm, or_left_comm]
    · rw [if_neg h1]
      by_cases h2 : d = e
      · rw [if_pos h2]
        subst h2
        simp
      · rw [if_neg h2]
        simp [ih]
        tauto

/-- Insertion preserves strict sortedness. -/
theorem pairwise_insertAscNat (d : ℕ) (l : List ℕ) (h : l.Pairwise (· < ·)) :
    (insertAscNat d l).Pairwise (· < ·) := by
  induction l with
  | nil => simp [insertAscNat]
  | cons e es ih =>
    rcases List.pairwise_cons.mp h with ⟨he, hes⟩
    unfold insertAscNat
    by_cases h1 : d < e
    · rw [if_pos h1]
      refine List.pairwise_cons.mpr ⟨?_, h⟩
      intro x hx
      rcases List.mem_cons.mp hx with hx | hx
      · omega
      · have := he x hx
        omega
    · rw [if_neg h1]
      by_cases h2 : d = e
      · rw [if_pos h2]
        exact h
      · rw [if_neg h2]
        refine List.pairwise_cons.mpr ⟨?_, ih hes⟩
        intro x hx
        rcases (mem_insertAscNat d x es).mp hx with hx | hx
        · omega
        · exact he x hx

/-- `sorted(set(...))` is strictly increasing. -/
theorem pairwise_sortedUnique (l : List ℕ) : (sortedUnique l).Pairwise (· < ·) := by
  unfold sortedUnique
  induction l with
  | nil => simp
  | cons a l ih => exact pairwise_insertAscNat a _ ih

/-!
The run invariant and the induction over the date loop.
-/

/-- What holds of the engine state at every date boundary of a run. -/
structure RunInv (md : List Row) (cap0 : ℚ) (st : BState) : Prop where
  live : st.livePositions = []
  chain : capChain cap0 st.trades
  capEq : st.capital = lastCap cap0 st.trades
  sameDay : ∀ t ∈ st.trades, t.exit_date = t.entry_date
  entryOne : ∀ d, countEntry d st.trades ≤ 1
  ttTwo : ∀ d, getTT st.tradesToday d ≤ 2
  posCap : 0 < cap0 → (∀ r ∈ md, 0 ≤ r.close) →
    (0 < st.capital ∧ ∀ t ∈ st.trades, 0 < t.capital_after)

/-- A ledger none of whose trades entered on `d` counts zero entries for `d`. -/
theorem countEntry_eq_zero (d : ℕ) (l : List Trade)
    (h : ∀ t ∈ l, t.entry_date ≠ d) : countEntry d l = 0 := by
  unfold countEntry
  rw [List.filter_eq_nil_iff.mpr (by intro t ht; simpa using h t ht)]
  rfl

/-- Every observable state of one date's processing has at most one live
position and all per-date counters at most 2. -/
theorem dateStates_bound (md : List Row) (strat : Strat) (name : String)
    (st : BState) (d : ℕ)
    (hlive : st.livePositions = [])
    (htt : ∀ d', getTT st.tradesToday d' ≤ 2)
    (hfresh : getTT st.tradesToday d = 0)
    (hafterlive : (processDate md strat name st d).livePositions = [])
    (hafter : ∀ d', getTT (processDate md strat name st d).tradesToday d' ≤ 2) :
    ∀ s ∈ dateStates md strat name st d,
      s.livePositions.length ≤ 1 ∧ ∀ d', getTT s.tradesToday d' ≤ 2 := by
  intro s hs
  unfold dateStates at hs
  simp only [] at hs
  rw [closePass_nil md name d _ _
    (show ({ st with tradesToday := initTT st.tradesToday d } : BState).livePositions = []
      from hlive)] at hs
  have hst0live : ({ st with tradesToday := initTT st.tradesToday d } : BState).livePositions
      = [] := hlive
  have hst0tt : ∀ d', getTT ({ st with tradesToday := initTT st.tradesToday d } :
      BState).tradesToday d' ≤ 2 := by
    intro d'
    show getTT (initTT st.tradesToday d) d' ≤ 2
    rw [getTT_initTT]
    exact htt d'
  rcases List.mem_cons.mp hs with h1 | hs
  · subst h1
    exact ⟨by simp [hlive], htt⟩
  rcases List.mem_cons.mp hs with h1 | hs
  · subst h1
    exact ⟨by simp [hlive], hst0tt⟩
  rcases List.mem_cons.mp hs with h1 | hs
  · subst h1
    exact ⟨by simp [hlive], hst0tt⟩
  rcases List.mem_append.mp hs with h1 | hs
  · obtain ⟨_, _, hl, ht, ht'⟩ :=
      entryStates_spec md strat d (md.filter (fun r => r.date == d))
        (every5 (md.filter (fun r => r.date == d))) _ hst0live s h1
    constructor
    · rcases hl with hl | ⟨pos, hl, _⟩
      · simp [hl]
      · simp [hl]
    · intro d'
      by_cases hdd : d' = d
      · have h2 : getTT ({ st with tradesToday := initTT st.tradesToday d } :
            BState).tradesToday d = 0 := by
          show getTT (initTT st.tradesToday d) d = 0
          rw [getTT_initTT]
          exact hfresh
        rw [hdd]
        omega
      · rw [ht' d' hdd]
        exact hst0tt d'
  · simp only [List.mem_singleton] at hs
    subst hs
    exact ⟨by simp [hafterlive], hafter⟩

/-- The induction over the date loop: the invariant holds at the end, and
every observable state of the run keeps at most one live position and all
per-date counters at most 2. -/
theorem run_inv (md : List Row) (strat : Strat) (name : String) (cap0 : ℚ) :
    ∀ (ds : List ℕ) (st : BState), ds.Pairwise (· < ·) → RunInv md cap0 st →
      (∀ t ∈ st.trades, ∀ d ∈ ds, t.entry_date ≠ d) →
      (∀ d ∈ ds, getTT st.tradesToday d = 0) →
      RunInv md cap0 (ds.foldl (processDate md strat name) st) ∧
      (∀ s ∈ runStates md strat name ds st,
        s.livePositions.length ≤ 1 ∧ ∀ d, getTT s.tradesToday d ≤ 2) := by
  intro ds
  induction ds with
  | nil =>
    intro st _ hInv _ _
    refine ⟨hInv, ?_⟩
    intro s hs
    simp only [runStates, List.mem_singleton] at hs
    subst hs
    exact ⟨by simp [hInv.live], hInv.ttTwo⟩
  | cons d ds ih =>
    intro st hpw hInv hA hfresh
    rcases List.pairwise_cons.mp hpw with ⟨hdlt, hpw'⟩
    obtain ⟨spec1, spec2, spec3, spec4⟩ :=
      processDate_spec md strat name st d hInv.live
    have hfreshd : getTT st.tradesToday d = 0 := hfresh d (List.mem_cons_self d ds)
    have hInv' : RunInv md cap0 (processDate md strat name st d) := by
      rcases spec4 with ⟨htr, hcap⟩ | ⟨t, htr, hentry, hexit, hcap, hcapafter, hposimp⟩
      · exact { live := spec1
                chain := htr ▸ hInv.chain
                capEq := by rw [htr, hcap]; exact hInv.capEq
                sameDay := by rw [htr]; exact hInv.sameDay
                entryOne := by rw [htr]; exact hInv.entryOne
                ttTwo := by
                  intro d'
                  by_cases hdd : d' = d
                  · subst hdd
                    omega
                  · rw [spec3 d' hdd]
                    exact hInv.ttTwo d'
                posCap := by
                  intro h0 hmd
                  rw [htr, hcap]
                  exact hInv.posCap h0 hmd }
      · refine { live := spec1
                 chain := ?_
                 capEq := ?_
                 sameDay := ?_
                 entryOne := ?_
                 ttTwo := ?_
                 posCap := ?_ }
        · rw [htr]
          refine capChain_append cap0 st.trades t hInv.chain ?_
          rw [hcapafter, hcap, hInv.capEq]
        · rw [htr, lastCap_append_single, hcapafter]
        · rw [htr]
          intro u hu
          rcases List.mem_append.mp hu with hu | hu
          · exact hInv.sameDay u hu
          · simp only [List.mem_singleton] at hu
            subst hu
            rw [hexit, hentry]
        · intro d'
          rw [htr, countEntry_append]
          by_cases hdd : d' = d
          · subst hdd
            have : countEntry d' st.trades = 0 :=
              countEntry_eq_zero d' st.trades
                (fun u hu => hA u hu d' (List.mem_cons_self d' ds))
            rw [this, hentry]
            simp
          · have : ¬ t.entry_date = d' := by rw [hentry]; omega
            rw [if_neg this]
            have := hInv.entryOne d'
            omega
        · intro d'
          by_cases hdd : d' = d
          · subst hdd
            omega
          · rw [spec3 d' hdd]
            exact hInv.ttTwo d'
        · intro h0 hmd
          refine ⟨hposimp (hInv.posCap h0 hmd).1 hmd, ?_⟩
          rw [htr]
          intro u hu
          rcases List.mem_append.mp hu with hu | hu
          · exact (hInv.posCap h0 hmd).2 u hu
          · simp only [List.mem_singleton] at hu
            subst hu
            rw [hcapafter]
            exact hposimp (hInv.posCap h0 hmd).1 hmd
    have hA' : ∀ u ∈ (processDate md strat name st d).trades,
        ∀ d' ∈ ds, u.entry_date ≠ d' := by
      intro u hu d' hd'
      rcases spec4 with ⟨htr, _⟩ | ⟨t, htr, hentry, _, _, _, _⟩
      · rw [htr] at hu
        exact hA u hu d' (List.mem_cons_of_mem d hd')
      · rw [htr] at hu
        rcases List.mem_append.mp hu with hu | hu
        · exact hA u hu d' (List.mem_cons_of_mem d hd')
        · simp only [List.mem_singleton] at hu
          subst hu
          have := hdlt d' hd'
          omega
    have hfresh' : ∀ d' ∈ ds, getTT (processDate md strat name st d).tradesToday d' = 0 := by
      intro d' hd'
      have hne : d' ≠ d := by
        have := hdlt d' hd'
        omega
      rw [spec3 d' hne]
      exact hfresh d' (List.mem_cons_of_mem d hd')
    obtain ⟨ihInv, ihTrace⟩ := ih (processDate md strat name st d) hpw' hInv' hA' hfresh'
    refine ⟨ihInv, ?_⟩
    intro s hs
    unfold runStates at hs
    rcases List.mem_append.mp hs with hs | hs
    · exact dateStates_bound md strat name st d hInv.live hInv.ttTwo hfreshd
        hInv'.live hInv'.ttTwo s hs
    · exact ihTrace s hs

/-- The invariant holds of the final state of every run, and every observable
state of the trace keeps at most one live position and all per-date counters
at most 2. -/
theorem run_master (md : List Row) (strat : Strat) (name : String) (cap : ℚ) :
    RunInv md cap (runBacktest md strat name cap) ∧
    (∀ s ∈ runTrace md strat name cap,
      s.livePositions.length ≤ 1 ∧ ∀ d, getTT s.tradesToday d ≤ 2) := by
  have h0 : RunInv md cap (initState cap) :=
    { live := rfl
      chain := trivial
      capEq := rfl
      sameDay := by intro t ht; simp [initState] at ht
      entryOne := by intro d; simp [initState, countEntry]
      ttTwo := by intro d; simp [initState, getTT]
      posCap := by
        intro hpos _
        refine ⟨hpos, ?_⟩
        intro t ht
        simp [initState] at ht }
  have h := run_inv md strat name cap (uniqueDates md) (initState cap)
    (pairwise_sortedUnique (md.map Row.date)) h0
    (by intro t ht; simp [initState] at ht)
    (by intro d _; rfl)
  exact h

/-!
A concrete example run used by the witnesses: one row, one date, one entry at
09:30 and its same-day close at 15:00.
-/

/-- A market-data row: date 1, 09:30, underlying 100, expiry 10, DTE 9,
strike 100, close 5, a call. -/
def exRow : Row := ⟨1, 9, 30, some 100, 10, 9, 100, 5, OptionType.CE⟩

/-- A one-row market-data table. -/
def mdEx : List Row := [exRow]

/-- A strategy that always asks to buy a call. -/
def stratEx : Strat := fun _ _ _ => (some OptionType.CE, true)

/-- The one trade the example run produces. -/
def tradeEx : Trade :=
  ⟨"S", 1, 1, 9, 30, 15, 0, OptionType.CE, 100, 10, 5, 5, 0, 0, 1000000, 100⟩

/-- C1: at no observable point of any `backtest_strategy` run does the
live-position set hold two or more positions, and an entry request arriving
while a position is already open is ignored (the entry loop returns the state
unchanged), so the live count stays at 1. -/
theorem claim_single_position_invariant :
    (∀ (md : List Row) (strat : Strat) (name : String) (cap : ℚ),
      ∀ s ∈ runTrace md strat name cap, s.livePositions.length ≤ 1) ∧
    (∀ (md : List Row) (strat : Strat) (d : ℕ) (df rows : List Row) (st : BState),
      st.livePositions ≠ [] → entryLoop md strat d df rows st = st) := by
  constructor
  · intro md strat name cap s hs
    exact ((run_master md strat name cap).2 s hs).1
  · intro md strat d df rows st h
    exact entryLoop_of_live_ne md strat d df rows st h

/-- C2: every ledger returned by `backtest_strategy` satisfies the capital
chain: each trade's `capital_after` is the previous one's (the initial
capital for the first trade) plus its own `profit`. -/
theorem claim_capital_conservation (md : List Row) (strat : Strat) (name : String)
    (cap : ℚ) : capChain cap (backtest_strategy md strat name cap) :=
  (run_master md strat name cap).1.chain

/-- C3: every trade of every ledger returned by `backtest_strategy` closes on
its entry date (`exit_date = entry_date`). -/
theorem claim_same_day_closure (md : List Row) (strat : Strat) (name : String)
    (cap : ℚ) : ∀ t ∈ backtest_strategy md strat name cap,
      t.exit_date = t.entry_date :=
  (run_master md strat name cap).1.sameDay

/-- Witness for C3: the example run produces a trade, and it closes on its
entry date. -/
theorem claim_same_day_closure_witness :
    tradeEx ∈ backtest_strategy mdEx stratEx "S" 1000000 ∧
      tradeEx.exit_date = tradeEx.entry_date :=
  ⟨by decide, claim_same_day_closure mdEx stratEx "S" 1000000 tradeEx (by decide)⟩

/-- C4: on every date, the number of ledger trades entered on it plus the
number of exits executed on it never exceeds the per-date cap of 3. -/
theorem claim_per_date_cap (md : List Row) (strat : Strat) (name : String)
    (cap : ℚ) (d : ℕ) :
    countEntry d (backtest_strategy md strat name cap) +
      countExit d (backtest_strategy md strat name cap) ≤ 3 := by
  have hsame := (run_master md strat name cap).1.sameDay
  have hone : countEntry d (backtest_strategy md strat name cap) ≤ 1 :=
    (run_master md strat name cap).1.entryOne d
  have hx : countExit d (backtest_strategy md strat name cap) =
      countEntry d (backtest_strategy md strat name cap) := by
    unfold countExit countEntry
    rw [List.filter_congr ?_]
    intro t ht
    rw [hsame t ht]
  omega

/-- C10: at most one new position is opened per date (at most one ledger
trade is entered on any date), every per-date counter stays at 2 or below at
every observable point (so the cap-of-3 break never fires for an open), and
the entry loop stops as soon as the live set is non-empty. -/
theorem claim_one_open_per_date :
    (∀ (md : List Row) (strat : Strat) (name : String) (cap : ℚ) (d : ℕ),
      countEntry d (backtest_strategy md strat name cap) ≤ 1) ∧
    (∀ (md : List Row) (strat : Strat) (name : String) (cap : ℚ),
      ∀ s ∈ runTrace md strat name cap, ∀ d, getTT s.tradesToday d ≤ 2) ∧
    (∀ (md : List Row) (strat : Strat) (d : ℕ) (df : List Row) (row : Row)
      (rows : List Row) (st : BState), st.livePositions ≠ [] →
      entryLoop md strat d df (row :: rows) st = st) := by
  refine ⟨?_, ?_, ?_⟩
  · intro md strat name cap d
    exact (run_master md strat name cap).1.entryOne d
  · intro md strat name cap s hs d
    exact ((run_master md strat name cap).2 s hs).2 d
  · intro md strat d df row rows st h
    exact entryLoop_of_live_ne md strat d df (row :: rows) st h

/-!
Sorting the ledger by entry date: permutation facts.
-/

/-- Inserting is a permutation of consing. -/
theorem insertTrade_perm (t : Trade) (l : List Trade) :
    List.Perm (insertTrade t l) (t :: l) := by
  induction l with
  | nil => exact List.Perm.refl _
  | cons u us ih =>
    unfold insertTrade
    by_cases hc : u.entry_date ≤ t.entry_date
    · rw [if_pos hc]
      exact (ih.cons u).trans (List.Perm.swap t u us)
    · rw [if_neg hc]

/-- The fold of insertions permutes the accumulator followed by the input. -/
theorem foldl_insertTrade_perm (l : List Trade) :
    ∀ acc : List Trade,
      List.Perm (l.foldl (fun acc t => insertTrade t acc) acc) (acc ++ l) := by
  induction l with
  | nil => intro acc; simp
  | cons t ts ih =>
    intro acc
    rw [List.foldl_cons]
    refine (ih (insertTrade t acc)).trans ?_
    refine (List.Perm.append_right ts (insertTrade_perm t acc)).trans ?_
    exact List.perm_middle.symm

/-- Sorting by entry date permutes the ledger. -/
theorem sortByEntry_perm (l : List Trade) : List.Perm (sortByEntry l) l := by
  simpa using foldl_insertTrade_perm l []

/-- Membership is invariant under the sort. -/
theorem mem_sortByEntry (t : Trade) (l : List Trade) :
    t ∈ sortByEntry l ↔ t ∈ l :=
  (sortByEntry_perm l).mem_iff

/-- The sort of a non-empty ledger is non-empty. -/
theorem sortByEntry_ne_nil (l : List Trade) (h : l ≠ []) : sortByEntry l ≠ [] := by
  intro hnil
  have := (sortByEntry_perm l).length_eq
  rw [hnil] at this
  exact h (List.length_eq_zero.mp this.symm)

/-- Total profit is invariant under the sort. -/
theorem sumProfits_sortByEntry (l : List Trade) :
    sumProfits (sortByEntry l) = sumProfits l :=
  ((sortByEntry_perm l).map Trade.profit).sum_eq

/-- `calculate_performance_metrics` on a non-empty ledger is its non-empty
branch. -/
theorem calc_eq_nonempty (init : ℚ) (l : List Trade) (h : l ≠ []) :
    calculate_performance_metrics init l = metrics_nonempty init l := by
  unfold calculate_performance_metrics
  rw [if_neg (by simpa using h)]

/-- C6: `calculate_performance_metrics` on an empty ledger returns the
defined zero-valued report: total trades 0, final capital the initial
capital, Sharpe 0, and every other metric 0 (the equity curve empty). -/
theorem claim_empty_metrics (init : ℚ) :
    calculate_performance_metrics init [] = empty_metrics init ∧
    (empty_metrics init).Total_Trades = 0 ∧
    (empty_metrics init).Final_Capital = init ∧
    (empty_metrics init).Sharpe_Ratio = SharpeVal.zero ∧
    (empty_metrics init).CAGR = CagrVal.zero ∧
    (empty_metrics init).Maximum_Drawdown = 0 ∧
    (empty_metrics init).Win_Rate = 0 ∧
    (empty_metrics init).Winning_Trades = 0 ∧
    (empty_metrics init).Losing_Trades = 0 ∧
    (empty_metrics init).Avg_Profit_Per_Trade = 0 ∧
    (empty_metrics init).Avg_Loss_Per_Trade = 0 ∧
    (empty_metrics init).Total_Return = 0 ∧
    (empty_metrics init).Profit_Factor = 0 ∧
    (empty_metrics init).Max_Consecutive_Wins = 0 ∧
    (empty_metrics init).Max_Consecutive_Losses = 0 ∧
    (empty_metrics init).Equity_Curve = [] :=
  ⟨rfl, rfl, rfl, rfl, rfl, rfl, rfl, rfl, rfl, rfl, rfl, rfl, rfl, rfl, rfl, rfl⟩

/-- C7: `get_exit_price_at_close` returns the Close of the last matching row
at or before 15:00 (the first row of the reversed matching list at or before
minute 900); with no such row it falls back to the last matching row of the
day; and it returns `none` exactly when no row matches at all. -/
theorem claim_exit_price_at_close (md : List Row) (d e : ℕ) (k : ℤ) (t : OptionType) :
    get_exit_price_at_close md d e k t =
      ((((md.filter (rowMatches d e k t)).reverse.find?
          (fun r => decide (dtMin r ≤ 900))).or
        ((md.filter (rowMatches d e k t)).reverse.head?)).map Row.close) ∧
    (get_exit_price_at_close md d e k t).isNone =
      (md.filter (rowMatches d e k t)).isEmpty := by
  by_cases hnil : md.filter (rowMatches d e k t) = []
  · constructor
    · rw [get_exit_price_at_close_eq, if_pos (by simp [hnil]), hnil]
      simp
    · rw [get_exit_price_at_close_eq, if_pos (by simp [hnil]), hnil]
      simp
  · have hlen : ¬ (md.filter (rowMatches d e k t)).length = 0 := by
      simpa using (List.length_pos.mpr hnil).ne'
    by_cases hc : 0 < ((md.filter (rowMatches d e k t)).filter
        (fun r => decide (dtMin r ≤ 900))).length
    · have hcne : (md.filter (rowMatches d e k t)).filter
          (fun r => decide (dtMin r ≤ 900)) ≠ [] := List.length_pos.mp hc
      obtain ⟨r, hr⟩ := Option.isSome_iff_exists.mp (List.getLast?_isSome.mpr hcne)
      have hfind : (md.filter (rowMatches d e k t)).reverse.find?
          (fun r => decide (dtMin r ≤ 900)) = some r := by
        rw [← getLast?_filter_eq_find?_reverse]
        exact hr
      constructor
      · rw [get_exit_price_at_close_eq, if_neg hlen, if_pos hc, hr, hfind]
        rfl
      · rw [get_exit_price_at_close_eq, if_neg hlen, if_pos hc, hr]
        simp [hnil]
    · have h0 : ((md.filter (rowMatches d e k t)).filter
          (fun r => decide (dtMin r ≤ 900))).length = 0 := by omega
      have hcz := List.length_eq_zero.mp h0
      have hfind : (md.filter (rowMatches d e k t)).reverse.find?
          (fun r => decide (dtMin r ≤ 900)) = none := by
        rw [← getLast?_filter_eq_find?_reverse, hcz]
        rfl
      obtain ⟨r, hr⟩ := Option.isSome_iff_exists.mp (List.getLast?_isSome.mpr hnil)
      constructor
      · rw [get_exit_price_at_close_eq, if_neg hlen, if_neg hc, hr, hfind]
        rw [List.head?_reverse, hr]
        rfl
      · rw [get_exit_price_at_close_eq, if_neg hlen, if_neg hc, hr]
        simp [hnil]

/-!
The profit factor with no losing trades.
-/

/-- With every trade profitable, the loss set is empty, so the denominator is
floored at 1 and the profit factor equals the total profit. -/
theorem profit_factor_no_losses (init : ℚ) (l : List Trade) (hne : l ≠ [])
    (hpos : ∀ t ∈ l, 0 < t.profit) :
    (calculate_performance_metrics init l).Profit_Factor = sumProfits l := by
  rw [calc_eq_nonempty init l hne]
  have hw : (sortByEntry l).filter (fun t => decide (0 < t.profit)) = sortByEntry l :=
    List.filter_eq_self.mpr (fun t ht => by
      simpa using hpos t ((mem_sortByEntry t l).mp ht))
  have hl0 : (sortByEntry l).filter (fun t => decide (t.profit ≤ 0)) = [] :=
    List.filter_eq_nil_iff.mpr (fun t ht => by
      simpa using not_le.mpr (hpos t ((mem_sortByEntry t l).mp ht)))
  have hsne : 0 < (sortByEntry l).length :=
    List.length_pos.mpr (sortByEntry_ne_nil l hne)
  unfold metrics_nonempty
  simp only [hw, hl0]
  simp [hsne, sumProfits_sortByEntry]

/-- The single trade of the spec's scenario: `entry_price = 100`,
`exit_price = 110`, notional 100000, initial capital 1000000; its derived
fields are computed with the engine's formulas. -/
def scenarioTrade : Trade :=
  ⟨"S", 1, 1, 9, 30, 15, 0, OptionType.CE, 100, 10, 100, 110,
   100000 * ((110 - 100) / 100), ((110 - 100) / 100) * 100,
   1000000 + 100000 * ((110 - 100) / 100), 100⟩

/-- Counterexample for C5: on the spec's own scenario ledger (one winning
trade, no losses) the report's profit factor is 10000 — the total profit over
the floored denominator 1 — not 0 as the claim states. -/
theorem claim_profit_factor_cex :
    (0:ℚ) < scenarioTrade.profit ∧
    (calculate_performance_metrics 1000000 [scenarioTrade]).Profit_Factor = 10000 ∧
    ¬ (calculate_performance_metrics 1000000 [scenarioTrade]).Profit_Factor = 0 := by
  refine ⟨by decide, by decide, by decide⟩

/-- C5 (amended): when the ledger has no losing trades the loss sum is absent
and the denominator floors at 1, so Profit_Factor equals the sum of the
(positive) profits; on the scenario ledger `profit = 10000`,
`profit_pct = 10`, `capital_after = 1010000`, `Win_Rate = 100` and
`Profit_Factor = 10000`. -/
theorem claim_profit_factor_amended :
    (∀ (init : ℚ) (l : List Trade), l ≠ [] → (∀ t ∈ l, 0 < t.profit) →
      (calculate_performance_metrics init l).Profit_Factor = sumProfits l) ∧
    scenarioTrade.profit = 10000 ∧
    scenarioTrade.profit_pct = 10 ∧
    scenarioTrade.capital_after = 1010000 ∧
    (calculate_performance_metrics 1000000 [scenarioTrade]).Win_Rate = 100 ∧
    (calculate_performance_metrics 1000000 [scenarioTrade]).Profit_Factor = 10000 := by
  refine ⟨profit_factor_no_losses, by decide, by decide, by decide, by decide, by decide⟩

/-- Witness for C5 (amended): the no-loss rule applied to the concrete
scenario ledger. -/
theorem claim_profit_factor_amended_witness :
    (calculate_performance_metrics 1000000 [scenarioTrade]).Profit_Factor =
      sumProfits [scenarioTrade] :=
  claim_profit_factor_amended.1 1000000 [scenarioTrade] (by decide) (by decide)

/-!
The equity curve.
-/

/-- The curve of the non-empty branch is one point per trade. -/
theorem metrics_nonempty_curve (init : ℚ) (l : List Trade) :
    (metrics_nonempty init l).Equity_Curve =
      (sortByEntry l).map (fun t => (t.exit_date, t.capital_after)) := rfl

/-- The cumulative series starts at 1 when the first capital is nonzero. -/
theorem cumulativeOf_head (caps : List ℚ) (c : ℚ) (h : caps.head? = some c)
    (hc : c ≠ 0) : (cumulativeOf caps).head? = some 1 := by
  cases caps with
  | nil => simp at h
  | cons c0 cs =>
    simp only [List.head?_cons, Option.some.injEq] at h
    subst h
    simp [cumulativeOf, div_self hc]

/-- The dates of the `combine_portfolio` curve are strictly increasing. -/
theorem combine_portfolio_dates_strict_mono (trades : List Trade) :
    List.Chain' (· < ·) ((combine_portfolio_equity trades).map Prod.fst) := by
  have h : (combine_portfolio_equity trades).map Prod.fst =
      sortedUnique (((sortByEntry trades).map
        (fun t => (t.exit_date, t.capital_after))).map Prod.fst) := by
    unfold combine_portfolio_equity groupLastByDate
    rw [List.map_map]
    exact List.map_id' _
  rw [h]
  exact List.Pairwise.chain' (pairwise_sortedUnique _)

/-- Two combined trades that exit on the same date (as `combine_portfolio`
can produce from two strategies trading the same day). -/
def tradeA : Trade :=
  ⟨"A", 4, 5, 9, 30, 15, 0, OptionType.CE, 100, 10, 5, 6, 2000, 20, 1002000, 100⟩

/-- The second trade, entered and exited on date 5. -/
def tradeB : Trade :=
  ⟨"B", 5, 5, 9, 30, 15, 0, OptionType.PE, 100, 10, 5, 6, 2000, 20, 1004000, 100⟩

/-- Counterexample for C8: on a ledger with two trades exiting on date 5, the
equity curve built by `calculate_performance_metrics` has two points with the
same date — one point per trade, not per date — so its date sequence is not
strictly increasing. -/
theorem claim_equity_curve_cex :
    ((calculate_performance_metrics 1000000 [tradeA, tradeB]).Equity_Curve.map
      Prod.fst = [5, 5]) ∧
    ¬ List.Chain' (· < ·)
      ((calculate_performance_metrics 1000000 [tradeA, tradeB]).Equity_Curve.map
        Prod.fst) ∧
    (calculate_performance_metrics 1000000 [tradeA, tradeB]).Equity_Curve.length = 2 := by
  have h1 : (calculate_performance_metrics 1000000 [tradeA, tradeB]).Equity_Curve.map
      Prod.fst = [5, 5] := by decide
  refine ⟨h1, ?_, by decide⟩
  rw [h1]
  simp [List.chain'_cons]

/-- C8 (amended): `calculate_performance_metrics` builds one equity point per
trade — `(exit_date, capital_after)` in entry-date-sorted ledger order, so
dates may repeat when several trades share an exit date; the cumulative
series is normalized to start at 1.0 (for a nonzero first capital); the
per-date last-capital series with strictly increasing dates is built by
`combine_portfolio` (in `run_backtest.py`), not here. -/
theorem claim_equity_curve_amended :
    (∀ (init : ℚ) (l : List Trade), l ≠ [] →
      (calculate_performance_metrics init l).Equity_Curve =
        (sortByEntry l).map (fun t => (t.exit_date, t.capital_after))) ∧
    (∀ (caps : List ℚ) (c : ℚ), caps.head? = some c → c ≠ 0 →
      (cumulativeOf caps).head? = some 1) ∧
    (∀ trades : List Trade,
      List.Chain' (· < ·) ((combine_portfolio_equity trades).map Prod.fst)) := by
  refine ⟨?_, cumulativeOf_head, combine_portfolio_dates_strict_mono⟩
  intro init l hne
  rw [calc_eq_nonempty init l hne]
  exact metrics_nonempty_curve init l

/-- Witness for C8 (amended): the per-trade curve and the normalization on
concrete inputs. -/
theorem claim_equity_curve_amended_witness :
    ((calculate_performance_metrics 1000000 [tradeA, tradeB]).Equity_Curve =
      (sortByEntry [tradeA, tradeB]).map (fun t => (t.exit_date, t.capital_after))) ∧
    (cumulativeOf [2, 4]).head? = some 1 :=
  ⟨claim_equity_curve_amended.1 1000000 [tradeA, tradeB] (by decide),
   claim_equity_curve_amended.2.1 [2, 4] 2 rfl (by norm_num)⟩

/-!
Drawdown boundedness.
-/

/-- Per-point drawdowns against a positive running maximum lie in [-1, 0]. -/
theorem dd_bounds_aux (l : List ℚ) : ∀ m : ℚ, 0 < m → (∀ c ∈ l, 0 < c) →
    ∀ x ∈ ((l.zip (runningMaxAux m l)).map (fun p => (p.1 - p.2) / p.2)),
      -1 ≤ x ∧ x ≤ 0 := by
  induction l with
  | nil =>
    intro m _ _ x hx
    simp [runningMaxAux] at hx
  | cons c cs ih =>
    intro m hm hl x hx
    rw [runningMaxAux] at hx
    simp only [List.zip_cons_cons, List.map_cons, List.mem_cons] at hx
    rcases hx with hx | hx
    · subst hx
      have hc : 0 < c := hl c (List.mem_cons_self c cs)
      have hmax : 0 < max m c := lt_max_of_lt_right hc
      constructor
      · have hrw : (c - max m c) / max m c = c / max m c - 1 := by
          rw [sub_div, div_self hmax.ne']
        rw [hrw]
        have h0 : 0 ≤ c / max m c := div_nonneg hc.le hmax.le
        linarith
      · exact div_nonpos_iff.mpr
          (Or.inr ⟨sub_nonpos.mpr (le_max_right m c), hmax.le⟩)
    · exact ih (max m c) (lt_max_of_lt_left hm)
        (fun y hy => hl y (List.mem_cons_of_mem c hy)) x hx

/-- Along a non-decreasing series the running maximum is the series itself,
so every drawdown is 0. -/
theorem dd_zeros_aux (l : List ℚ) : ∀ m : ℚ, List.Chain' (· ≤ ·) (m :: l) →
    ∀ x ∈ ((l.zip (runningMaxAux m l)).map (fun p => (p.1 - p.2) / p.2)), x = 0 := by
  induction l with
  | nil =>
    intro m _ x hx
    simp [runningMaxAux] at hx
  | cons c cs ih =>
    intro m hch x hx
    have hmc : m ≤ c := (List.chain'_cons.mp hch).1
    have hch' : List.Chain' (· ≤ ·) (c :: cs) := (List.chain'_cons.mp hch).2
    rw [runningMaxAux, max_eq_right hmc] at hx
    simp only [List.zip_cons_cons, List.map_cons, List.mem_cons] at hx
    rcases hx with hx | hx
    · subst hx
      simp
    · exact ih c hch' x hx

/-- A fold of `min` stays within bounds that hold of its seed and inputs. -/
theorem foldl_min_bounds (xs : List ℚ) : ∀ x a b : ℚ, a ≤ x → x ≤ b →
    (∀ y ∈ xs, a ≤ y ∧ y ≤ b) → a ≤ xs.foldl min x ∧ xs.foldl min x ≤ b := by
  induction xs with
  | nil =>
    intro x a b ha hb _
    exact ⟨ha, hb⟩
  | cons y ys ih =>
    intro x a b ha hb hy
    rw [List.foldl_cons]
    refine ih (min x y) a b ?_ ?_ (fun z hz => hy z (List.mem_cons_of_mem y hz))
    · exact le_min ha (hy y (List.mem_cons_self y ys)).1
    · exact (min_le_left x y).trans hb

/-- A fold of `min` over zeros from zero is zero. -/
theorem foldl_min_zeros (xs : List ℚ) : ∀ x : ℚ, x = 0 → (∀ y ∈ xs, y = 0) →
    xs.foldl min x = 0 := by
  induction xs with
  | nil =>
    intro x hx _
    simpa using hx
  | cons y ys ih =>
    intro x hx hy
    rw [List.foldl_cons]
    refine ih (min x y) ?_ (fun z hz => hy z (List.mem_cons_of_mem y hz))
    rw [hx, hy y (List.mem_cons_self y ys)]
    simp

/-- Maximum drawdown of a positive capital series lies in [-100, 0], and is 0
when the series is non-decreasing. -/
theorem mddOf_bounds (c0 : ℚ) (cs : List ℚ) (hpos : ∀ c ∈ c0 :: cs, 0 < c) :
    (-100 ≤ mddOf (c0 :: cs) ∧ mddOf (c0 :: cs) ≤ 0) ∧
    (List.Chain' (· ≤ ·) (c0 :: cs) → mddOf (c0 :: cs) = 0) := by
  have hc0 : 0 < c0 := hpos c0 (List.mem_cons_self c0 cs)
  have he0 : c0 / c0 = 1 := div_self hc0.ne'
  have hcum : cumulativeOf (c0 :: cs) = (c0 / c0) :: cs.map (fun c => c / c0) := by
    simp [cumulativeOf]
  have hzip : drawdownsOf (c0 :: cs) =
      (((c0 / c0) :: cs.map (fun c => c / c0)).zip
        (runningMaxAux (c0 / c0) ((c0 / c0) :: cs.map (fun c => c / c0)))).map
        (fun p => (p.1 - p.2) / p.2) := by
    unfold drawdownsOf runningMax
    rw [hcum]
  have hposcum : ∀ c ∈ (c0 / c0) :: cs.map (fun c => c / c0), 0 < c := by
    intro c hc
    rcases List.mem_cons.mp hc with hc | hc
    · rw [hc, he0]
      norm_num
    · obtain ⟨y, hy, rfl⟩ := List.mem_map.mp hc
      exact div_pos (hpos y (List.mem_cons_of_mem c0 hy)) hc0
  have hall : ∀ x ∈ drawdownsOf (c0 :: cs), -1 ≤ x ∧ x ≤ 0 := by
    intro x hx
    rw [hzip] at hx
    exact dd_bounds_aux _ (c0 / c0) (by rw [he0]; norm_num) hposcum x hx
  have hcons : drawdownsOf (c0 :: cs) =
      ((c0 / c0 - c0 / c0) / (c0 / c0)) ::
      ((cs.map (fun c => c / c0)).zip
        (runningMaxAux (c0 / c0) (cs.map (fun c => c / c0)))).map
        (fun p => (p.1 - p.2) / p.2) := by
    rw [hzip, runningMaxAux, max_self]
    simp [List.zip_cons_cons]
  have hx0 : (c0 / c0 - c0 / c0) / (c0 / c0) = 0 := by
    rw [sub_self]
    simp
  constructor
  · have hhead : -1 ≤ (c0 / c0 - c0 / c0) / (c0 / c0) ∧
        (c0 / c0 - c0 / c0) / (c0 / c0) ≤ 0 := by
      rw [hx0]
      norm_num
    have htail : ∀ y ∈ ((cs.map (fun c => c / c0)).zip
        (runningMaxAux (c0 / c0) (cs.map (fun c => c / c0)))).map
        (fun p => (p.1 - p.2) / p.2), -1 ≤ y ∧ y ≤ 0 := by
      intro y hy
      refine hall y ?_
      rw [hcons]
      exact List.mem_cons_of_mem _ hy
    have hfold := foldl_min_bounds _ _ (-1) 0 hhead.1 hhead.2 htail
    unfold mddOf
    rw [hcons]
    constructor
    · linarith [hfold.1]
    · linarith [hfold.2]
  · intro hchain
    have hchaincum : List.Chain' (· ≤ ·) ((c0 / c0) :: cs.map (fun c => c / c0)) := by
      rw [← hcum]
      unfold cumulativeOf
      refine (List.chain'_map (fun c => c / c0)).mpr ?_
      exact hchain.imp (fun a b hab => div_le_div_of_nonneg_right hab hc0.le)
    have hzeros : ∀ x ∈ drawdownsOf (c0 :: cs), x = 0 := by
      intro x hx
      rw [hzip] at hx
      refine dd_zeros_aux _ (c0 / c0) ?_ x hx
      exact List.chain'_cons.mpr ⟨le_refl _, hchaincum⟩
    have hzf := foldl_min_zeros _ _ hx0 (fun y hy => hzeros y (by
      rw [hcons]
      exact List.mem_cons_of_mem _ hy))
    unfold mddOf
    rw [hcons]
    simp only []
    rw [hzf]
    simp

/-- C9: for every non-empty ledger a run produces from positive initial
capital over data with non-negative close prices, the maximum drawdown lies
in [-100, 0] (positions are sized at a tenth of current capital, so capital
stays positive), and it equals 0 when the equity-curve capital series is
non-decreasing. -/
theorem claim_drawdown_bounds (md : List Row) (strat : Strat) (name : String)
    (cap : ℚ) (hcap : 0 < cap) (hclose : ∀ r ∈ md, 0 ≤ r.close)
    (hne : backtest_strategy md strat name cap ≠ []) :
    (-100 ≤ (calculate_performance_metrics cap
        (backtest_strategy md strat name cap)).Maximum_Drawdown ∧
     (calculate_performance_metrics cap
        (backtest_strategy md strat name cap)).Maximum_Drawdown ≤ 0) ∧
    (List.Chain' (· ≤ ·) ((sortByEntry (backtest_strategy md strat name cap)).map
        Trade.capital_after) →
      (calculate_performance_metrics cap
        (backtest_strategy md strat name cap)).Maximum_Drawdown = 0) := by
  have hposL : ∀ t ∈ backtest_strategy md strat name cap, 0 < t.capital_after :=
    ((run_master md strat name cap).1.posCap hcap hclose).2
  have hMdd : (calculate_performance_metrics cap
      (backtest_strategy md strat name cap)).Maximum_Drawdown =
      mddOf ((sortByEntry (backtest_strategy md strat name cap)).map
        Trade.capital_after) := by
    rw [calc_eq_nonempty cap _ hne]
    show mddOf (((sortByEntry (backtest_strategy md strat name cap)).map
        (fun t => (t.exit_date, t.capital_after))).map Prod.snd) = _
    rw [List.map_map]
    rfl
  have hcapsne : (sortByEntry (backtest_strategy md strat name cap)).map
      Trade.capital_after ≠ [] := by
    intro hnil
    exact sortByEntry_ne_nil _ hne (List.map_eq_nil_iff.mp hnil)
  obtain ⟨c0, cs, hcs⟩ := List.exists_cons_of_ne_nil hcapsne
  have hpos : ∀ c ∈ c0 :: cs, 0 < c := by
    intro c hc
    rw [← hcs] at hc
    obtain ⟨t, ht, rfl⟩ := List.mem_map.mp hc
    exact hposL t ((mem_sortByEntry t _).mp ht)
  have hb := mddOf_bounds c0 cs hpos
  rw [hMdd, hcs]
  exact ⟨hb.1, fun hch => hb.2 (hcs ▸ hch)⟩

/-- Witness for C9: the bounds evaluated on the concrete example run. -/
theorem claim_drawdown_bounds_witness :
    (-100 ≤ (calculate_performance_metrics 1000000
        (backtest_strategy mdEx stratEx "S" 1000000)).Maximum_Drawdown ∧
     (calculate_performance_metrics 1000000
        (backtest_strategy mdEx stratEx "S" 1000000)).Maximum_Drawdown ≤ 0) ∧
    (List.Chain' (· ≤ ·) ((sortByEntry (backtest_strategy mdEx stratEx "S" 1000000)).map
        Trade.capital_after) →
      (calculate_performance_metrics 1000000
        (backtest_strategy mdEx stratEx "S" 1000000)).Maximum_Drawdown = 0) :=
  claim_drawdown_bounds mdEx stratEx "S" 1000000 (by norm_num) (by decide) (by decide)
